import Mathlib

/-!
Shallow embedding of the pytsa target-ship pipeline: the data model, the
track-construction paths of `pytsa/tsea/search_agent.py`, the kinematic
corrections, the neighbor search, the rule engine of
`pytsa/trajectories/rules.py` and the inspector of
`pytsa/trajectories/inspect.py`, together with theorems about them.

Coordinates, speeds and courses (python floats) are modelled as rationals,
timestamps as integers (unix seconds).
-/

/-- AIS position report: the `AISMessage` objects constructed in
`search_agent.py` (fields `sender`, `timestamp` in unix seconds, `lat`,
`lon`, `SOG`, `COG`). -/
structure AISMessage where
  sender : Int
  timestamp : Int
  lat : Rat
  lon : Rat
  SOG : Rat
  COG : Rat
deriving DecidableEq, Repr, Inhabited

/-- A track is an ordered list of messages (python `list[AISMessage]`). -/
abbrev Track := List AISMessage

/-- Target vessel: the attributes of `TargetShip` that the claims touch
(`mmsi`, static attributes, and the list of tracks). -/
structure TargetShip where
  mmsi : Int
  shipType : List Int
  shipLength : Rat
  tracks : List Track
deriving DecidableEq, Repr, Inhabited

/-- Python `pairwise` from `more_itertools`: the list of consecutive pairs. -/
def pairwiseL {α : Type} (l : List α) : List (α × α) :=
  l.zip l.tail

/-- Append a message to the last track of a track list, python
`tv.tracks[-1].append(msg)`. On `[]` this yields `[[msg]]`, which is exactly
what appending to the initial `[[]]` state produces. -/
def appendLast (tracks : List Track) (msg : AISMessage) : List Track :=
  tracks.dropLast ++ [tracks.getLastD [] ++ [msg]]

/-- The last message of the last track, python `tv.tracks[-1][-1]`. The
source only evaluates it when the last track is nonempty. -/
def lastMsg (tracks : List Track) : AISMessage :=
  (tracks.getLastD []).getLastD default

/-- Segmentation loop of `SearchAgent._impl_construct_target_vessel`
(`search_agent.py` lines 402-426): the track list starts as `[[]]` and the
first message is placed without a split test; every later message is tested
by `split.is_split_point` against the last placed message, a new empty track
is appended on a split (unless `skip_tsplit`), and the message is always
appended to the last track. The split predicate is a parameter, as the
thresholds are injectable. -/
def implSegmentTracks (isSplit : AISMessage → AISMessage → Bool)
    (skipTsplit : Bool) (msgs : List AISMessage) : List Track :=
  (msgs.foldl
    (fun st msg =>
      match st with
      | (tracks, first) =>
        if first then (appendLast tracks msg, false)
        else
          let tracks :=
            if !skipTsplit && isSplit (lastMsg tracks) msg then tracks ++ [[]]
            else tracks
          (appendLast tracks msg, false))
    ([[]], true)).1

/-- The post-pass of `_impl_construct_target_vessel` (lines 428-431):

    for track in tv.tracks:
        if len(track) < 2:
            tv.tracks.remove(track)

Python iterates by position while `remove` shrinks the list in place, so the
element following a removed one is skipped; `remove` deletes the first
element equal to the iterator value. The position `i` grows by one each
step and the list never grows, so the loop runs at most `tracks.length`
iterations; that bound is passed as structural fuel. -/
def removeShortGo : Nat → List Track → Nat → List Track
  | 0, tracks, _ => tracks
  | fuel + 1, tracks, i =>
    if h : i < tracks.length then
      let t := tracks.get ⟨i, h⟩
      removeShortGo fuel (if t.length < 2 then tracks.erase t else tracks) (i + 1)
    else tracks

/-- The removal loop of `_impl_construct_target_vessel`, started at the
first position. -/
def removeShort (tracks : List Track) : List Track :=
  removeShortGo tracks.length tracks 0

/-- The method `_impl_construct_target_vessel` restricted to its track output:
segmentation followed by the in-place removal loop. (`find_shell` only
computes the derived shell and does not change `tracks`; on the
multiprocess path `_mp_construct_target_vessels` this function is applied
to the single-MMSI frames produced by `_distribute`.) -/
def implConstructTracks (isSplit : AISMessage → AISMessage → Bool)
    (skipTsplit : Bool) (msgs : List AISMessage) : List Track :=
  removeShort (implSegmentTracks isSplit skipTsplit msgs)

/-- Per-vessel segmentation of `SearchAgent._sp_construct_target_vessels`
(lines 485-511) on a single-MMSI stream sorted by timestamp: the first
message creates the vessel with `tracks = [[msg]]`; every later message is
split-tested against `tracks[-1][-1]`, a new empty track is appended on a
split, and the message is appended to the last track. -/
def spSegmentTracks (isSplit : AISMessage → AISMessage → Bool)
    (msgs : List AISMessage) : List Track :=
  match msgs with
  | [] => []
  | m :: rest =>
    rest.foldl
      (fun tracks msg =>
        let tracks :=
          if isSplit (lastMsg tracks) msg then tracks ++ [[]] else tracks
        appendLast tracks msg)
      [[m]]

/-- The method `SearchAgent._remove_single_obs` (lines 555-564): keep only the tracks
with at least two observations, via a fresh `to_keep` list. -/
def removeSingleObs (tracks : List Track) : List Track :=
  tracks.filter (fun track => decide (2 ≤ track.length))

/-- The `njobs = 1` path `_sp_construct_target_vessels` restricted to the
tracks of a single vessel, with `overlap = False`: segmentation, then
`find_shell` (does not touch `tracks`), then `_remove_single_obs`. -/
def spConstructTracks (isSplit : AISMessage → AISMessage → Bool)
    (msgs : List AISMessage) : List Track :=
  removeSingleObs (spSegmentTracks isSplit msgs)

/-- Modelled from the spec: the split predicate `split.is_split_point` lives
in `pytsa/tsea/split.py`, which is not among the given sources. Spec section
4.2 describes a disjunctive test with injectable thresholds whose first
disjunct is that the time gap exceeds a maximum allowed gap, and the
end-to-end scenario in section 8 uses a max-gap threshold of 1000 seconds.
We model that disjunct with an injectable threshold. -/
def isSplitMaxGap (maxGap : Int) (m0 m1 : AISMessage) : Bool :=
  m1.timestamp - m0.timestamp > maxGap

/-- A report of vessel 1 at time `t`, remaining fields zero. -/
def msgAt (t : Int) : AISMessage :=
  { sender := 1, timestamp := t, lat := 0, lon := 0, SOG := 0, COG := 0 }

/-- Three reports 2000 seconds apart: with a 1000 second max gap every
consecutive pair is a split point, so segmentation yields three
single-report tracks. -/
def gapMsgs : List AISMessage := [msgAt 0, msgAt 2000, msgAt 4000]

/-- C1: the claim states that every track in the output of target-vessel
construction, on the multiprocess path as well, has at least 2 reports. On
the stream `gapMsgs` the multiprocess path segments into three
single-report tracks and the removal loop of
`_impl_construct_target_vessel`, which deletes from the list it is
iterating, skips and keeps the middle one: the output contains the track
`[msgAt 2000]` of length 1. -/
theorem C1_impl_keeps_single_report_track :
    implConstructTracks (isSplitMaxGap 1000) false gapMsgs = [[msgAt 2000]] ∧
    ([msgAt 2000] : Track).length < 2 := by
  constructor
  · rfl
  · decide

/-- C2: the claim states that the sequential and the multiprocess
construction paths produce identical tracks. On the stream `gapMsgs` the
sequential path (`_remove_single_obs`) discards all three single-report
tracks while the multiprocess path keeps one, so the two paths disagree. -/
theorem C2_sp_and_mp_paths_disagree :
    spConstructTracks (isSplitMaxGap 1000) gapMsgs ≠
      implConstructTracks (isSplitMaxGap 1000) false gapMsgs := by
  decide

/-- Speed correction, `SearchAgent._speed_correction` (lines 586-602), as
written: the loop `for msg_t0, msg_t1 in pairwise(target.tracks)` binds
consecutive tracks (python lists), not consecutive messages of a track, and
its first statement `_time_mean_speed(msg_t0, msg_t1)` reads `msg_t1.lat`,
an attribute a python list does not have. So a vessel with at least two
tracks raises `AttributeError` at the first pair, and a vessel with fewer
than two tracks is returned with every report untouched. Modelled as
`Except`, with the error string naming the exception. -/
def speedCorrection (target : TargetShip) : Except String TargetShip :=
  match pairwiseL target.tracks with
  | [] => Except.ok target
  | _ :: _ => Except.error "AttributeError: list object has no attribute lat"

/-- Position correction, `SearchAgent._position_correction` (lines 604-626),
as written: the same `for msg_t0, msg_t1 in pairwise(target.tracks)` loop
over consecutive tracks, whose first statement reads `msg_t1.timestamp` on
a python list. As with `speedCorrection`, a vessel with at least two tracks
raises `AttributeError` and any other vessel is returned untouched. -/
def positionCorrection (target : TargetShip) : Except String TargetShip :=
  match pairwiseL target.tracks with
  | [] => Except.ok target
  | _ :: _ =>
      Except.error "AttributeError: list object has no attribute timestamp"

/-- A vessel with two tracks of two reports each. -/
def twoTrackShip : TargetShip :=
  { mmsi := 1, shipType := [30], shipLength := 50,
    tracks := [[msgAt 0, msgAt 10], [msgAt 5000, msgAt 5010]] }

/-- A vessel with a single track whose two reports are one degree of
latitude apart after one hour at zero reported speed: the implied time-mean
speed (1 degree per hour) lies outside the band `[0, 0]` spanned by the two
reported speeds, so per the claim the later SOG should be overwritten. -/
def oneTrackShip : TargetShip :=
  { mmsi := 2, shipType := [30], shipLength := 50,
    tracks := [[msgAt 0, { msgAt 3600 with lat := 1 }]] }

/-- C3: the claim states that speed correction overwrites the later SOG of
every out-of-band consecutive report pair and never raises. The code pairs
up consecutive tracks instead of consecutive reports: on `twoTrackShip` it
raises `AttributeError`, and on `oneTrackShip`, whose single track holds an
out-of-band pair, it returns the vessel unchanged without touching any
SOG. -/
theorem C3_speed_correction_miswired :
    speedCorrection twoTrackShip =
      Except.error "AttributeError: list object has no attribute lat" ∧
    speedCorrection oneTrackShip = Except.ok oneTrackShip := by
  constructor <;> rfl

/-- C6: the claim states that position correction dead-reckons each later
report of a consecutive pair and never raises. The code pairs up
consecutive tracks instead of consecutive reports: on `twoTrackShip` it
raises `AttributeError`, and on `oneTrackShip` it returns the vessel
unchanged without examining any report pair. -/
theorem C6_position_correction_miswired :
    positionCorrection twoTrackShip =
      Except.error "AttributeError: list object has no attribute timestamp" ∧
    positionCorrection oneTrackShip = Except.ok oneTrackShip := by
  constructor <;> rfl

/-- A rule as consumed by `Recipe.cook`: a boolean predicate on a track
("should reject"). -/
abbrev Rule := Track → Bool

/-- The `Recipe` class of `pytsa/trajectories/rules.py`, restricted to the
state `cook` reads: the ordered rule functions stored by `__init__`. -/
structure Recipe where
  funcs : List Rule

/-- The method `Recipe.cook` (rules.py lines 25-33): the cooked predicate returns
`all(func(track) for func in self.funcs)`. -/
def Recipe.cook (r : Recipe) : Track → Bool :=
  fun track => r.funcs.all (fun func => func track)

/-- A rule that flags every track. -/
def alwaysTrue : Rule := fun _ => true

/-- A rule that flags no track. -/
def alwaysFalse : Rule := fun _ => false

/-- C4: the cooked recipe is the conjunction of its rules on every track;
in particular with an always-true rule R1 and an always-false rule R2,
`Recipe(R1, R2).cook()` rejects no track and `Recipe(R1, R1).cook()`
rejects every track. -/
theorem C4_cook_is_conjunction :
    (∀ (funcs : List Rule) (track : Track),
        (Recipe.mk funcs).cook track = true ↔ ∀ f ∈ funcs, f track = true) ∧
    (∀ track : Track, (Recipe.mk [alwaysTrue, alwaysFalse]).cook track = false) ∧
    (∀ track : Track, (Recipe.mk [alwaysTrue, alwaysTrue]).cook track = true) := by
  refine ⟨fun funcs track => ?_, fun track => rfl, fun track => rfl⟩
  simp [Recipe.cook, List.all_eq_true]

/-- Witness for C4 at a concrete track: the two-rule recipes behave as the
claim demands on the empty track. -/
theorem C4_cook_is_conjunction_witness :
    (Recipe.mk [alwaysTrue, alwaysFalse]).cook [] = false ∧
    (Recipe.mk [alwaysTrue, alwaysTrue]).cook [] = true :=
  ⟨C4_cook_is_conjunction.2.1 [], C4_cook_is_conjunction.2.2 []⟩

/-- Largest element of a list of rationals (`np.max` over a nonempty
array); 0 is returned on `[]`, which the source never hits. -/
def listMax : List Rat → Rat
  | [] => 0
  | x :: xs => xs.foldl max x

/-- Smallest element of a list of rationals. -/
def listMin : List Rat → Rat
  | [] => 0
  | x :: xs => xs.foldl min x

/-- Numpy `np.ptp`: peak-to-peak, the maximum minus the minimum of the values.
On an empty array numpy raises; the theorems below only use nonempty
tracks, matching the track-length invariant of the pipeline. -/
def ptp (xs : List Rat) : Rat := listMax xs - listMin xs

/-- The rule `too_small_span` (rules.py lines 108-115): true when the latitude span
and the longitude span of the track are both strictly greater than
`span`. -/
def tooSmallSpan (track : Track) (span : Rat) : Bool :=
  decide (ptp (track.map (fun v => v.lat)) > span) &&
    decide (ptp (track.map (fun v => v.lon)) > span)

theorem le_foldl_max {xs : List Rat} {acc : Rat} :
    acc ≤ xs.foldl max acc ∧ ∀ a ∈ xs, a ≤ xs.foldl max acc := by
  induction xs generalizing acc with
  | nil => exact ⟨le_refl _, by simp⟩
  | cons x xs ih =>
    simp only [List.foldl_cons]
    constructor
    · exact le_trans (le_max_left acc x) ih.1
    · intro a ha
      rcases List.mem_cons.mp ha with h | h
      · subst h
        exact le_trans (le_max_right acc a) ih.1
      · exact ih.2 a h

theorem foldl_max_mem (xs : List Rat) (acc : Rat) :
    xs.foldl max acc = acc ∨ xs.foldl max acc ∈ xs := by
  induction xs generalizing acc with
  | nil => exact Or.inl rfl
  | cons x xs ih =>
    simp only [List.foldl_cons]
    rcases ih (max acc x) with h | h
    · rcases max_choice acc x with hm | hm
      · exact Or.inl (by rw [h, hm])
      · refine Or.inr ?_
        rw [h, hm]
        exact List.mem_cons_self x xs
    · exact Or.inr (List.mem_cons_of_mem _ h)

theorem listMax_mem {xs : List Rat} (h : xs ≠ []) : listMax xs ∈ xs := by
  match xs with
  | x :: rest =>
    simp only [listMax]
    rcases foldl_max_mem rest x with h1 | h1
    · rw [h1]
      exact List.mem_cons_self _ _
    · exact List.mem_cons_of_mem _ h1

theorem le_listMax {xs : List Rat} {a : Rat} (ha : a ∈ xs) : a ≤ listMax xs := by
  match xs with
  | x :: rest =>
    simp only [listMax]
    rcases List.mem_cons.mp ha with h | h
    · subst h
      exact le_foldl_max.1
    · exact le_foldl_max.2 a h

theorem foldl_min_le {xs : List Rat} {acc : Rat} :
    xs.foldl min acc ≤ acc ∧ ∀ a ∈ xs, xs.foldl min acc ≤ a := by
  induction xs generalizing acc with
  | nil => exact ⟨le_refl _, by simp⟩
  | cons x xs ih =>
    simp only [List.foldl_cons]
    constructor
    · exact le_trans ih.1 (min_le_left acc x)
    · intro a ha
      rcases List.mem_cons.mp ha with h | h
      · subst h
        exact le_trans ih.1 (min_le_right acc a)
      · exact ih.2 a h

theorem foldl_min_mem (xs : List Rat) (acc : Rat) :
    xs.foldl min acc = acc ∨ xs.foldl min acc ∈ xs := by
  induction xs generalizing acc with
  | nil => exact Or.inl rfl
  | cons x xs ih =>
    simp only [List.foldl_cons]
    rcases ih (min acc x) with h | h
    · rcases min_choice acc x with hm | hm
      · exact Or.inl (by rw [h, hm])
      · refine Or.inr ?_
        rw [h, hm]
        exact List.mem_cons_self x xs
    · exact Or.inr (List.mem_cons_of_mem _ h)

theorem listMin_mem {xs : List Rat} (h : xs ≠ []) : listMin xs ∈ xs := by
  match xs with
  | x :: rest =>
    simp only [listMin]
    rcases foldl_min_mem rest x with h1 | h1
    · rw [h1]
      exact List.mem_cons_self _ _
    · exact List.mem_cons_of_mem _ h1

theorem listMin_le {xs : List Rat} {a : Rat} (ha : a ∈ xs) : listMin xs ≤ a := by
  match xs with
  | x :: rest =>
    simp only [listMin]
    rcases List.mem_cons.mp ha with h | h
    · subst h
      exact foldl_min_le.1
    · exact foldl_min_le.2 a h

/-- The peak-to-peak of a nonempty list exceeds `c` exactly when some pair
of its elements differs by more than `c`. -/
theorem ptp_gt_iff {xs : List Rat} {c : Rat} (h : xs ≠ []) :
    ptp xs > c ↔ ∃ a ∈ xs, ∃ b ∈ xs, a - b > c := by
  constructor
  · intro hgt
    exact ⟨listMax xs, listMax_mem h, listMin xs, listMin_mem h, hgt⟩
  · rintro ⟨a, ha, b, hb, hab⟩
    have h1 : a ≤ listMax xs := le_listMax ha
    have h2 : listMin xs ≤ b := listMin_le hb
    have : a - b ≤ ptp xs := by
      unfold ptp
      exact sub_le_sub h1 h2
    linarith

/-- C10: despite its name and docstring, `too_small_span` is true exactly
when the latitude span and the longitude span of the (nonempty) track are
both strictly greater than `span`; equivalently, when in each coordinate
some pair of reports differs by more than `span`. In particular it returns
false for every track whose extent is small. -/
theorem C10_too_small_span_flags_large_tracks (track : Track) (span : Rat)
    (h : track ≠ []) :
    tooSmallSpan track span = true ↔
      (∃ a ∈ track, ∃ b ∈ track, a.lat - b.lat > span) ∧
      (∃ a ∈ track, ∃ b ∈ track, a.lon - b.lon > span) := by
  have hlat : track.map (fun v => v.lat) ≠ [] := by
    simpa using h
  have hlon : track.map (fun v => v.lon) ≠ [] := by
    simpa using h
  rw [tooSmallSpan, Bool.and_eq_true, decide_eq_true_eq, decide_eq_true_eq,
    ptp_gt_iff hlat, ptp_gt_iff hlon]
  constructor
  · rintro ⟨⟨a, ha, b, hb, hab⟩, ⟨c, hc, d, hd, hcd⟩⟩
    rcases List.mem_map.mp ha with ⟨ma, hma, rfl⟩
    rcases List.mem_map.mp hb with ⟨mb, hmb, rfl⟩
    rcases List.mem_map.mp hc with ⟨mc, hmc, rfl⟩
    rcases List.mem_map.mp hd with ⟨md, hmd, rfl⟩
    exact ⟨⟨ma, hma, mb, hmb, hab⟩, ⟨mc, hmc, md, hmd, hcd⟩⟩
  · rintro ⟨⟨ma, hma, mb, hmb, hab⟩, ⟨mc, hmc, md, hmd, hcd⟩⟩
    exact ⟨⟨ma.lat, List.mem_map_of_mem _ hma, mb.lat, List.mem_map_of_mem _ hmb, hab⟩,
      ⟨mc.lon, List.mem_map_of_mem _ hmc, md.lon, List.mem_map_of_mem _ hmd, hcd⟩⟩

/-- A two-report track one degree wide in both coordinates. -/
def wideTrack : Track :=
  [msgAt 0, { msgAt 10 with lat := 1, lon := 1 }]

/-- Witness for C10: on `wideTrack` and span 1/2 the rule fires, via the
characterization applied at a concrete input. -/
theorem C10_too_small_span_flags_large_tracks_witness :
    tooSmallSpan wideTrack (1 / 2) = true :=
  (C10_too_small_span_flags_large_tracks wideTrack (1 / 2) (by simp [wideTrack])).mpr
    ⟨⟨{ msgAt 10 with lat := 1, lon := 1 }, by simp [wideTrack], msgAt 0,
        by simp [wideTrack], by norm_num [msgAt]⟩,
      ⟨{ msgAt 10 with lat := 1, lon := 1 }, by simp [wideTrack], msgAt 0,
        by simp [wideTrack], by norm_num [msgAt]⟩⟩

/-- Squared planar distance between two (lat, lon) points. The kd-tree
query compares Euclidean distances, which are monotone in their squares,
so the ordering and the radius test are stated on squares to stay within
the rationals. -/
def distSq (p q : Rat × Rat) : Rat :=
  (p.1 - q.1) ^ 2 + (p.2 - q.2) ^ 2

/-- The `cKDTree(np.column_stack((lat, lon))).query(pos, k, distance_upper_bound)`
call of `_get_neighbors` (lines 356-371), modelled from the documented
contract of the library call: return the `k` nearest points, reporting
points beyond the bound at infinite distance; source line 371 then drops
the infinite entries. Net effect: the points within the bound, ordered by
distance to the query point, truncated to `k`. A `none` bound models the
`np.inf` of line 364, which disables the cutoff. -/
def kdQuery (pts : List (Rat × Rat)) (q : Rat × Rat) (k : Nat)
    (boundSq : Option Rat) : List (Rat × Rat) :=
  let within := pts.filter (fun p =>
    match boundSq with
    | none => true
    | some b => decide (distSq p q ≤ b))
  (within.mergeSort (fun a b => decide (distSq a q ≤ distSq b q))).take k

/-- The method `SearchAgent._get_neighbors` (lines 337-373) after the time filter: an
empty filtered set is returned unchanged (with a warning); otherwise the
radius is converted from nautical miles to degrees (`search_radius/60`,
line 362) unless it is infinite (`none`), and the reports selected by the
k-nearest query within that bound are returned (`max_tgt_ships` plays the
role of `k`). Reports are modelled by their (lat, lon) pairs, which is all
the query reads. -/
def getNeighbors (pts : List (Rat × Rat)) (q : Rat × Rat) (k : Nat)
    (radiusNm : Option Rat) : List (Rat × Rat) :=
  if pts = [] then []
  else kdQuery pts q k (radiusNm.map (fun r => (r / 60) ^ 2))

/-- C5: neighbor search returns only reports within the radius converted
to degrees as `radius_nm / 60`; when at most `k` reports are within the
radius it returns exactly those (as a set, order not guaranteed), and an
unbounded radius disables the cutoff, returning all reports subject to
`k`. Distances are compared through their squares. -/
theorem C5_neighbors_within_radius (pts : List (Rat × Rat))
    (q : Rat × Rat) (k : Nat) :
    (∀ r : Rat, ∀ p ∈ getNeighbors pts q k (some r),
        distSq p q ≤ (r / 60) ^ 2) ∧
    (∀ r : Rat,
        (pts.filter (fun p => decide (distSq p q ≤ (r / 60) ^ 2))).length ≤ k →
        (getNeighbors pts q k (some r)).Perm
          (pts.filter (fun p => decide (distSq p q ≤ (r / 60) ^ 2)))) ∧
    (pts.length ≤ k → (getNeighbors pts q k none).Perm pts) := by
  refine ⟨fun r p hp => ?_, fun r hlen => ?_, fun hlen => ?_⟩
  · rw [getNeighbors] at hp
    split at hp
    · simp at hp
    · simp only [kdQuery, Option.map_some] at hp
      have h1 := List.mem_of_mem_take hp
      rw [List.mem_mergeSort] at h1
      exact of_decide_eq_true (List.mem_filter.mp h1).2
  · rw [getNeighbors]
    split
    · subst pts
      simp
    · simp only [kdQuery, Option.map_some]
      rw [List.take_of_length_le]
      · exact (List.mergeSort_perm _ _).trans (List.Perm.refl _)
      · rw [List.length_mergeSort]
        exact hlen
  · rw [getNeighbors]
    split
    · subst pts
      simp
    · show (((pts.filter (fun _ => true)).mergeSort
          (fun a b => decide (distSq a q ≤ distSq b q))).take k).Perm pts
      rw [List.filter_true, List.take_of_length_le]
      · exact List.mergeSort_perm _ _
      · rw [List.length_mergeSort]
        exact hlen

/-- Two concrete reports: one at the query point, one a degree away in
both coordinates. -/
def nbrPts : List (Rat × Rat) := [(0, 0), (1, 1)]

/-- Witness for C5 at a concrete input: with a 60 nm radius (1 degree) the
far point is outside the bound and the search returns exactly the near
point; with an unbounded radius it returns both points. -/
theorem C5_neighbors_within_radius_witness :
    (getNeighbors nbrPts (0, 0) 2 (some 60)).Perm
      (nbrPts.filter (fun p => decide (distSq p (0, 0) ≤ ((60 : Rat) / 60) ^ 2))) ∧
    (getNeighbors nbrPts (0, 0) 2 none).Perm nbrPts :=
  ⟨(C5_neighbors_within_radius nbrPts (0, 0) 2).2.1 60
      (by norm_num [nbrPts, distSq, List.filter]),
    (C5_neighbors_within_radius nbrPts (0, 0) 2).2.2 (by norm_num [nbrPts])⟩

/-- The pieces of a python function object that `_check_signature`
inspects: whether the object is callable, its parameter list as
(name, annotation) pairs, and its return annotation. Annotations are
modelled as strings; the relevant ones are "list[AISMessage]" and
"bool". -/
structure FuncSig where
  callable : Bool
  params : List (String × String)
  retAnnot : String
deriving DecidableEq, Repr

/-- A rule function as passed to `Recipe.__init__`: its inspectable
signature together with its runtime behavior on a track. -/
structure PyRule where
  sig : FuncSig
  fn : Track → Bool

/-- The checker `_check_signature` (rules.py lines 37-58): `TypeError` on a
non-callable, on a parameter count other than one, on a wrong parameter
annotation or on a wrong return annotation; line 49 indexes
`sig.parameters["track"]` first, so a single parameter not named `track`
raises `KeyError`. Every raise is modelled as `Except.error` naming the
exception. -/
def checkSignature (f : FuncSig) : Except String Unit :=
  if f.callable = false then
    Except.error "TypeError: Expected a callable"
  else if f.params.length ≠ 1 then
    Except.error "TypeError: Expected a function with exactly one parameter"
  else
    match f.params.lookup "track" with
    | none => Except.error "KeyError: track"
    | some a =>
      if a ≠ "list[AISMessage]" then
        Except.error "TypeError: Expected a function with parameter track of type list[AISMessage]"
      else if f.retAnnot ≠ "bool" then
        Except.error "TypeError: Expected a function with return type bool"
      else Except.ok ()

/-- The loop of `Recipe.__init__` (rules.py lines 20-23): check every
stored function in order; the first failure raises out of the
constructor. -/
def checkAllRules : List PyRule → Except String Unit
  | [] => Except.ok ()
  | f :: rest =>
    match checkSignature f.sig with
    | Except.error e => Except.error e
    | Except.ok _ => checkAllRules rest

/-- The constructor `Recipe.__init__`: on success the constructed object holds exactly
the passed rule functions; any signature failure raises before the object
becomes usable. -/
def recipeInit (funcs : List PyRule) : Except String Recipe :=
  match checkAllRules funcs with
  | Except.error e => Except.error e
  | Except.ok _ => Except.ok (Recipe.mk (funcs.map (fun f => f.fn)))

/-- The signatures `_check_signature` accepts: callable, exactly one
parameter, named `track`, annotated `list[AISMessage]`, returning
`bool`. -/
def validRule (f : FuncSig) : Prop :=
  f.callable = true ∧ f.params = [("track", "list[AISMessage]")] ∧
    f.retAnnot = "bool"

theorem checkSignature_ok_iff {f : FuncSig} :
    checkSignature f = Except.ok () ↔ validRule f := by
  rcases f with ⟨c, ps, ret⟩
  cases c with
  | false => simp [checkSignature, validRule]
  | true =>
    match ps with
    | [] => simp [checkSignature, validRule]
    | (n, a) :: q :: rest => simp [checkSignature, validRule]
    | [(n, a)] =>
      by_cases hn : n = "track"
      · subst hn
        by_cases ha : a = "list[AISMessage]"
        · subst ha
          by_cases hr : ret = "bool"
          · subst hr
            simp [checkSignature, validRule, List.lookup]
          · simp [checkSignature, validRule, List.lookup, hr]
        · simp [checkSignature, validRule, List.lookup, ha]
      · simp [checkSignature, validRule, List.lookup,
          beq_eq_false_iff_ne.mpr (Ne.symm hn), hn]

theorem checkAllRules_ok_iff {funcs : List PyRule} :
    checkAllRules funcs = Except.ok () ↔ ∀ f ∈ funcs, validRule f.sig := by
  induction funcs with
  | nil => simp [checkAllRules]
  | cons f rest ih =>
    cases hc : checkSignature f.sig with
    | error e =>
      simp only [checkAllRules, hc]
      constructor
      · intro h
        simp at h
      · intro h
        have h2 := checkSignature_ok_iff.mpr (h f (List.mem_cons_self f rest))
        rw [hc] at h2
        cases h2
    | ok u =>
      cases u
      simp only [checkAllRules, hc]
      constructor
      · intro h g hg
        rcases List.mem_cons.mp hg with h1 | h1
        · subst h1
          exact checkSignature_ok_iff.mp hc
        · exact ih.mp h g h1
      · intro h
        exact ih.mpr fun g hg => h g (List.mem_cons_of_mem f hg)

/-- C8: recipe validation happens at construction time: `Recipe.__init__`
succeeds exactly when every passed function has a valid rule signature
(callable, one parameter named `track` of the declared type, `bool`
return), raising immediately otherwise; and a successfully constructed
recipe evaluates purely as the conjunction of its stored rule functions,
so cooking and evaluation can never fail because of a rule signature. -/
theorem C8_recipe_validation_is_at_construction (funcs : List PyRule) :
    ((∃ r, recipeInit funcs = Except.ok r) ↔ ∀ f ∈ funcs, validRule f.sig) ∧
    (∀ r, recipeInit funcs = Except.ok r → ∀ track : Track,
        (r.cook track = true ↔ ∀ f ∈ funcs, f.fn track = true)) := by
  constructor
  · rw [← checkAllRules_ok_iff]
    unfold recipeInit
    cases hca : checkAllRules funcs with
    | error e => simp
    | ok u =>
      cases u
      simp
  · intro r hr track
    unfold recipeInit at hr
    cases hca : checkAllRules funcs with
    | error e =>
      rw [hca] at hr
      simp at hr
    | ok u =>
      cases u
      rw [hca] at hr
      simp only [Except.ok.injEq] at hr
      subst hr
      simp [Recipe.cook, List.all_eq_true]

/-- The signature of a correctly annotated rule function. -/
def goodSig : FuncSig :=
  FuncSig.mk true [("track", "list[AISMessage]")] "bool"

/-- A correctly annotated rule function. -/
def goodRule : PyRule :=
  PyRule.mk goodSig (fun _ => true)

/-- The signature of a rule function whose single parameter is named `x`:
the dictionary index `sig.parameters["track"]` fails on it. -/
def badSig : FuncSig :=
  FuncSig.mk true [("x", "list[AISMessage]")] "bool"

/-- A rule function with signature `badSig`. -/
def badRule : PyRule :=
  PyRule.mk badSig (fun _ => true)

/-- Witness for C8 at concrete inputs: construction succeeds on the
well-formed rule and fails on the ill-formed one. -/
theorem C8_recipe_validation_is_at_construction_witness :
    (∃ r, recipeInit [goodRule] = Except.ok r) ∧
    ¬(∃ r, recipeInit [badRule] = Except.ok r) := by
  constructor
  · exact (C8_recipe_validation_is_at_construction [goodRule]).1.mpr
      (fun f hf => by
        rw [List.mem_singleton] at hf
        subst hf
        simp [goodRule, goodSig, validRule])
  · intro hex
    have h := (C8_recipe_validation_is_at_construction [badRule]).1.mp hex
      badRule (List.mem_singleton.mpr rfl)
    exact absurd h.2.1 (by simp [badRule, badSig])

/-- Targets dictionaries `dict[MMSI, TargetShip]` are modelled as
insertion-ordered association lists. -/
abbrev TargetsD := List (Int × TargetShip)

/-- Python `vessel.mmsi in target` on the modelled dictionary. -/
def dictMem (d : TargetsD) (m : Int) : Bool :=
  d.any (fun p => decide (p.1 = m))

/-- Python `target[vessel.mmsi].tracks.append(track)`: the entry stored
under the key is updated in place. -/
def dictAppendTrack (d : TargetsD) (m : Int) (track : Track) : TargetsD :=
  d.map (fun p =>
    if p.1 = m then (p.1, { p.2 with tracks := p.2.tracks ++ [track] }) else p)

/-- The method `Inspector._copy_track` (inspect.py lines 113-124): when the vessel key
is not yet present, insert a deep copy of the vessel with its tracks list
emptied; then append the track to the entry under the key. -/
def copyTrack (vessel : TargetShip) (d : TargetsD) (track : Track) : TargetsD :=
  dictAppendTrack
    (if dictMem d vessel.mmsi then d
     else d ++ [(vessel.mmsi, { vessel with tracks := [] })])
    vessel.mmsi track

/-- The loop body of `Inspector._inspect_impl` (lines 89-94) for one
track: count it, then route it to the rejected dictionary when the cooked
recipe holds on it and to the accepted dictionary otherwise. -/
def routeTrack (recipe : Track → Bool) (ship : TargetShip)
    (st : TargetsD × TargetsD × Nat) (track : Track) :
    TargetsD × TargetsD × Nat :=
  match st with
  | (acc, rej, n) =>
    if recipe track then (acc, copyTrack ship rej track, n + 1)
    else (copyTrack ship acc track, rej, n + 1)

/-- The method `Inspector._inspect_impl` (lines 81-95), starting from the freshly
constructed inspector state (`accepted = rejected = {}`): every track of
every vessel is routed in order. Returns (accepted, rejected, number of
tracks seen). -/
def inspectImpl (recipe : Track → Bool) (targets : TargetsD) :
    TargetsD × TargetsD × Nat :=
  targets.foldl
    (fun st p => p.2.tracks.foldl (routeTrack recipe p.2) st)
    ([], [], 0)

/-- Routing a list of tracks of one ship into one dictionary. -/
def addTracks (s : TargetShip) (d : TargetsD) (ts : List Track) : TargetsD :=
  ts.foldl (fun d t => copyTrack s d t) d

/-- The dictionary the inspector builds for a routing predicate: one entry
per input vessel with at least one routed track, keyed by the vessel mmsi,
holding a copy of the vessel whose tracks are exactly its routed tracks in
order. -/
def entriesWith (pred : Track → Bool) : TargetsD → TargetsD
  | [] => []
  | p :: ships =>
    (if p.2.tracks.filter pred = [] then []
     else [(p.2.mmsi, { p.2 with tracks := p.2.tracks.filter pred })]) ++
      entriesWith pred ships

/-- Total number of tracks in a collection. -/
def totalTracks (ships : TargetsD) : Nat :=
  (ships.map (fun p => p.2.tracks.length)).sum

/-- The (mmsi, track) pairs of a collection, vessel by vessel. -/
def trackPairs : TargetsD → List (Int × Track)
  | [] => []
  | p :: d => p.2.tracks.map (fun t => (p.1, t)) ++ trackPairs d

theorem dictMem_append (d1 d2 : TargetsD) (m : Int) :
    dictMem (d1 ++ d2) m = (dictMem d1 m || dictMem d2 m) := by
  simp [dictMem]

theorem dictAppendTrack_of_not_mem {d : TargetsD} {m : Int} {t : Track}
    (h : dictMem d m = false) : dictAppendTrack d m t = d := by
  induction d with
  | nil => rfl
  | cons p rest ih =>
    simp only [dictMem, List.any_cons, Bool.or_eq_false_iff,
      decide_eq_false_iff_not] at h
    have htail : dictAppendTrack rest m t = rest := ih h.2
    show (if p.1 = m then (p.1, { p.2 with tracks := p.2.tracks ++ [t] })
        else p) :: dictAppendTrack rest m t = p :: rest
    rw [if_neg h.1, htail]

theorem dictAppendTrack_append (d1 d2 : TargetsD) (m : Int) (t : Track) :
    dictAppendTrack (d1 ++ d2) m t =
      dictAppendTrack d1 m t ++ dictAppendTrack d2 m t := by
  simp [dictAppendTrack]

theorem copyTrack_fresh {s : TargetShip} {d : TargetsD} {t : Track}
    (h : dictMem d s.mmsi = false) :
    copyTrack s d t = d ++ [(s.mmsi, { s with tracks := [t] })] := by
  unfold copyTrack
  rw [if_neg (by simp [h]), dictAppendTrack_append,
    dictAppendTrack_of_not_mem h]
  simp [dictAppendTrack]

theorem copyTrack_snoc {s : TargetShip} {d : TargetsD} {v : TargetShip}
    {t : Track} (h : dictMem d s.mmsi = false) :
    copyTrack s (d ++ [(s.mmsi, v)]) t =
      d ++ [(s.mmsi, { v with tracks := v.tracks ++ [t] })] := by
  unfold copyTrack
  rw [if_pos (by simp [dictMem_append, dictMem]), dictAppendTrack_append,
    dictAppendTrack_of_not_mem h]
  simp [dictAppendTrack]

theorem addTracks_snoc {s : TargetShip} {d : TargetsD}
    (v : TargetShip) (ts : List Track) (h : dictMem d s.mmsi = false) :
    addTracks s (d ++ [(s.mmsi, v)]) ts =
      d ++ [(s.mmsi, { v with tracks := v.tracks ++ ts })] := by
  induction ts generalizing v with
  | nil =>
    show d ++ [(s.mmsi, v)] = _
    rw [List.append_nil]
  | cons t ts ih =>
    show addTracks s (copyTrack s (d ++ [(s.mmsi, v)]) t) ts = _
    rw [copyTrack_snoc h, ih]
    simp [List.append_assoc]

theorem addTracks_fresh (s : TargetShip) (d : TargetsD) (ts : List Track)
    (h : dictMem d s.mmsi = false) :
    addTracks s d ts =
      d ++ (if ts = [] then [] else [(s.mmsi, { s with tracks := ts })]) := by
  cases ts with
  | nil =>
    show d = d ++ []
    rw [List.append_nil]
  | cons t ts =>
    show addTracks s (copyTrack s d t) ts = _
    rw [copyTrack_fresh h, addTracks_snoc _ _ h]
    simp

theorem routeTracks_eq (recipe : Track → Bool) (s : TargetShip)
    (ts : List Track) (acc rej : TargetsD) (n : Nat) :
    ts.foldl (routeTrack recipe s) (acc, rej, n) =
      (addTracks s acc (ts.filter (fun t => !recipe t)),
       addTracks s rej (ts.filter (fun t => recipe t)),
       n + ts.length) := by
  induction ts generalizing acc rej n with
  | nil => simp [addTracks]
  | cons t ts ih =>
    simp only [List.foldl_cons, routeTrack]
    by_cases hr : recipe t = true
    · rw [if_pos hr, ih]
      have e1 : (t :: ts).filter (fun x => !recipe x) =
          ts.filter (fun x => !recipe x) := by
        simp [List.filter_cons, hr]
      have e2 : (t :: ts).filter (fun x => recipe x) =
          t :: ts.filter (fun x => recipe x) := by
        simp [List.filter_cons, hr]
      rw [e1, e2]
      simp only [Prod.mk.injEq, List.length_cons]
      refine ⟨by first | rfl | trivial, by first | rfl | trivial, by omega⟩
    · have hr2 : recipe t = false := by
        cases hrt : recipe t
        · rfl
        · exact absurd hrt hr
      rw [if_neg hr, ih]
      have e1 : (t :: ts).filter (fun x => !recipe x) =
          t :: ts.filter (fun x => !recipe x) := by
        simp [List.filter_cons, hr2]
      have e2 : (t :: ts).filter (fun x => recipe x) =
          ts.filter (fun x => recipe x) := by
        simp [List.filter_cons, hr2]
      rw [e1, e2]
      simp only [Prod.mk.injEq, List.length_cons]
      refine ⟨by first | rfl | trivial, by first | rfl | trivial, by omega⟩

theorem inspectFold_eq (recipe : Track → Bool) (ships : TargetsD)
    (acc rej : TargetsD) (n : Nat)
    (hnd : (ships.map (fun p => p.2.mmsi)).Nodup)
    (hacc : ∀ p ∈ ships, dictMem acc p.2.mmsi = false)
    (hrej : ∀ p ∈ ships, dictMem rej p.2.mmsi = false) :
    ships.foldl (fun st p => p.2.tracks.foldl (routeTrack recipe p.2) st)
        (acc, rej, n) =
      (acc ++ entriesWith (fun t => !recipe t) ships,
       rej ++ entriesWith (fun t => recipe t) ships,
       n + totalTracks ships) := by
  induction ships generalizing acc rej n with
  | nil => simp [entriesWith, totalTracks]
  | cons p ships ih =>
    have hmem := List.mem_cons_self p ships
    have hndc := List.nodup_cons.mp hnd
    have hne : ∀ q ∈ ships, q.2.mmsi ≠ p.2.mmsi := by
      intro q hq heq
      have hmm : q.2.mmsi ∈ List.map (fun p => p.2.mmsi) ships :=
        List.mem_map_of_mem (fun p => p.2.mmsi) hq
      rw [heq] at hmm
      exact hndc.1 hmm
    simp only [List.foldl_cons]
    rw [routeTracks_eq, addTracks_fresh _ _ _ (hacc p hmem),
      addTracks_fresh _ _ _ (hrej p hmem)]
    have haccnew : ∀ q ∈ ships,
        dictMem (acc ++ (if p.2.tracks.filter (fun t => !recipe t) = [] then []
          else [(p.2.mmsi, { p.2 with
            tracks := p.2.tracks.filter (fun t => !recipe t) })]))
          q.2.mmsi = false := by
      intro q hq
      rw [dictMem_append, hacc q (List.mem_cons_of_mem p hq), Bool.false_or]
      split
      · rfl
      · simp [dictMem, Ne.symm (hne q hq)]
    have hrejnew : ∀ q ∈ ships,
        dictMem (rej ++ (if p.2.tracks.filter (fun t => recipe t) = [] then []
          else [(p.2.mmsi, { p.2 with
            tracks := p.2.tracks.filter (fun t => recipe t) })]))
          q.2.mmsi = false := by
      intro q hq
      rw [dictMem_append, hrej q (List.mem_cons_of_mem p hq), Bool.false_or]
      split
      · rfl
      · simp [dictMem, Ne.symm (hne q hq)]
    rw [ih _ _ _ hndc.2 haccnew hrejnew]
    simp only [entriesWith, totalTracks, List.map_cons, List.sum_cons,
      List.append_assoc, Prod.mk.injEq]
    refine ⟨by first | rfl | trivial, by first | rfl | trivial, by omega⟩

theorem trackPairs_append (d1 d2 : TargetsD) :
    trackPairs (d1 ++ d2) = trackPairs d1 ++ trackPairs d2 := by
  induction d1 with
  | nil => rfl
  | cons p d1 ih => simp [trackPairs, ih]

theorem trackPairs_entriesWith (pred : Track → Bool) (ships : TargetsD)
    (hkeys : ∀ p ∈ ships, p.1 = p.2.mmsi) :
    trackPairs (entriesWith pred ships) =
      (trackPairs ships).filter (fun q => pred q.2) := by
  induction ships with
  | nil => rfl
  | cons p ships ih =>
    have hk := hkeys p (List.mem_cons_self p ships)
    have ihh := ih fun q hq => hkeys q (List.mem_cons_of_mem p hq)
    show trackPairs ((if p.2.tracks.filter pred = [] then []
        else [(p.2.mmsi, { p.2 with tracks := p.2.tracks.filter pred })]) ++
          entriesWith pred ships) = _
    rw [trackPairs_append, ihh]
    show _ = (p.2.tracks.map (fun t => (p.1, t)) ++ trackPairs ships).filter
      (fun q => pred q.2)
    rw [List.filter_append]
    congr 1
    rw [List.filter_map]
    have hcomp : ((fun q => pred q.2) ∘ fun t => ((p.1, t) : Int × Track)) =
        pred := rfl
    rw [hcomp]
    split
    · rename_i hc
      rw [hc]
      rfl
    · show (p.2.tracks.filter pred).map (fun t => (p.2.mmsi, t)) ++ [] = _
      rw [List.append_nil, hk]

theorem mem_entriesWith {pred : Track → Bool} {ships : TargetsD}
    {e : Int × TargetShip} (he : e ∈ entriesWith pred ships) :
    ∃ p ∈ ships,
      e = (p.2.mmsi, { p.2 with tracks := p.2.tracks.filter pred }) := by
  induction ships with
  | nil => cases he
  | cons p ships ih =>
    rcases List.mem_append.mp he with h | h
    · refine ⟨p, List.mem_cons_self p ships, ?_⟩
      revert h
      split
      · intro h
        cases h
      · intro h
        exact List.mem_singleton.mp h
    · rcases ih h with ⟨q, hq, he2⟩
      exact ⟨q, List.mem_cons_of_mem p hq, he2⟩

/-- C7: in a single partition run of `Inspector._inspect_impl` on a
collection keyed by vessel mmsi, the (mmsi, track) pairs of the accepted
output are exactly the input pairs on which the cooked recipe is false,
those of the rejected output exactly the pairs on which it is true, the
two outputs together are a permutation of the input pairs (no track lost
or duplicated; the key sets may overlap), and every output vessel entry
carries the attributes of the matching source vessel (its tracks having
been rebuilt from empty). -/
theorem C7_partition_is_exact (recipe : Track → Bool) (targets : TargetsD)
    (hkeys : ∀ p ∈ targets, p.1 = p.2.mmsi)
    (hnd : (targets.map (fun p => p.2.mmsi)).Nodup) :
    trackPairs (inspectImpl recipe targets).1 =
        (trackPairs targets).filter (fun q => !recipe q.2) ∧
    trackPairs (inspectImpl recipe targets).2.1 =
        (trackPairs targets).filter (fun q => recipe q.2) ∧
    (trackPairs (inspectImpl recipe targets).2.1 ++
        trackPairs (inspectImpl recipe targets).1).Perm (trackPairs targets) ∧
    (∀ e ∈ (inspectImpl recipe targets).1, ∃ p ∈ targets,
        e.1 = p.2.mmsi ∧ e.2.mmsi = p.2.mmsi ∧ e.2.shipType = p.2.shipType ∧
          e.2.shipLength = p.2.shipLength) ∧
    (∀ e ∈ (inspectImpl recipe targets).2.1, ∃ p ∈ targets,
        e.1 = p.2.mmsi ∧ e.2.mmsi = p.2.mmsi ∧ e.2.shipType = p.2.shipType ∧
          e.2.shipLength = p.2.shipLength) := by
  have hfold := inspectFold_eq recipe targets [] [] 0 hnd
    (fun p _ => rfl) (fun p _ => rfl)
  have h1 : (inspectImpl recipe targets).1 =
      entriesWith (fun t => !recipe t) targets := by
    rw [inspectImpl, hfold]
    rfl
  have h2 : (inspectImpl recipe targets).2.1 =
      entriesWith (fun t => recipe t) targets := by
    rw [inspectImpl, hfold]
    rfl
  have hmemfields : ∀ (pred : Track → Bool) (e : Int × TargetShip),
      e ∈ entriesWith pred targets → ∃ p ∈ targets,
        e.1 = p.2.mmsi ∧ e.2.mmsi = p.2.mmsi ∧ e.2.shipType = p.2.shipType ∧
          e.2.shipLength = p.2.shipLength := by
    intro pred e he
    rcases mem_entriesWith he with ⟨p, hp, he2⟩
    subst he2
    exact ⟨p, hp, rfl, rfl, rfl, rfl⟩
  refine ⟨?_, ?_, ?_, ?_, ?_⟩
  · rw [h1, trackPairs_entriesWith _ _ hkeys]
  · rw [h2, trackPairs_entriesWith _ _ hkeys]
  · rw [h1, h2, trackPairs_entriesWith _ _ hkeys,
      trackPairs_entriesWith _ _ hkeys]
    exact List.filter_append_perm (fun q => recipe q.2) (trackPairs targets)
  · intro e he
    exact hmemfields _ e (h1 ▸ he)
  · intro e he
    exact hmemfields _ e (h2 ▸ he)

/-- A vessel with two tracks, one early and one late. -/
def shipA : TargetShip :=
  TargetShip.mk 1 [70] 100 [[msgAt 0, msgAt 10], [msgAt 100, msgAt 110]]

/-- A vessel with a single early track. -/
def shipB : TargetShip :=
  TargetShip.mk 2 [30] 50 [[msgAt 0, msgAt 20]]

/-- A two-vessel collection keyed by mmsi. -/
def targetsEx : TargetsD := [(1, shipA), (2, shipB)]

/-- A recipe rejecting tracks that start at or after time 100. -/
def recipeEx : Track → Bool :=
  fun t => decide ((t.headD default).timestamp ≥ 100)

/-- Witness for C7 at a concrete input: on `targetsEx` and `recipeEx` the
accepted output holds exactly the input pairs the recipe does not
reject. -/
theorem C7_partition_is_exact_witness :
    trackPairs (inspectImpl recipeEx targetsEx).1 =
      (trackPairs targetsEx).filter (fun q => !recipeEx q.2) :=
  (C7_partition_is_exact recipeEx targetsEx
    (by
      intro p hp
      rcases List.mem_cons.mp hp with h | h
      · subst h
        rfl
      · rw [List.mem_singleton] at h
        subst h
        rfl)
    (by
      show List.Nodup [shipA.mmsi, shipB.mmsi]
      show List.Nodup [1, 2]
      simp)).1

/-- The helper `print_rejection_rate` (inspect.py lines 17-21) formats
`n_rejected / n_total * 100`; python division raises `ZeroDivisionError`
when `n_total` is 0. Modelled as the computed percentage or the error. -/
def printRejectionRate (nRejected nTotal : Nat) : Except String Rat :=
  if nTotal = 0 then Except.error "ZeroDivisionError"
  else Except.ok ((nRejected : Rat) / (nTotal : Rat) * 100)

/-- The method `Inspector.inspect` with `njobs = 1` (inspect.py lines 52-57): run
`_inspect_impl`, count the rejected tracks, report the rejection rate,
and only then return the two partitions. -/
def inspectSeq (recipe : Track → Bool) (targets : TargetsD) :
    Except String (TargetsD × TargetsD) :=
  match inspectImpl recipe targets with
  | (a, r, n) =>
    match printRejectionRate ((r.map (fun p => p.2.tracks.length)).sum) n with
    | Except.error e => Except.error e
    | Except.ok _ => Except.ok (a, r)

theorem inspectImpl_all_empty (recipe : Track → Bool) (targets : TargetsD)
    (h : ∀ p ∈ targets, p.2.tracks = []) :
    inspectImpl recipe targets = ([], [], 0) := by
  unfold inspectImpl
  induction targets with
  | nil => rfl
  | cons p rest ih =>
    simp only [List.foldl_cons]
    rw [h p (List.mem_cons_self p rest)]
    exact ih fun q hq => h q (List.mem_cons_of_mem p hq)

/-- C9: on a collection with zero tracks in total, `Inspector.inspect`
with `njobs = 1` raises `ZeroDivisionError` from the rejection-rate
summary instead of returning the two empty partitions. -/
theorem C9_inspect_divides_by_zero (recipe : Track → Bool)
    (targets : TargetsD) (h : ∀ p ∈ targets, p.2.tracks = []) :
    inspectSeq recipe targets = Except.error "ZeroDivisionError" := by
  unfold inspectSeq
  rw [inspectImpl_all_empty recipe targets h]
  rfl

/-- Witness for C9: the empty collection makes `inspect` raise. -/
theorem C9_inspect_divides_by_zero_witness :
    inspectSeq (fun _ => true) [] = Except.error "ZeroDivisionError" :=
  C9_inspect_divides_by_zero (fun _ => true) [] (by simp)
